import Mathlib

/-!
Verification of the chord-enumeration and notation-document engine of the
music-anki repository (`scripts/gen_chord_images.py` and
`scripts/gen_chord_image_anki_pkg.py`), against its specification.

The pitch model (`pymusictheory`: `NoteInOctave`, `Interval`, `Chord`) and the
chord-type token table (`gen_chords.utils`) are dependencies whose sources are
not part of the repository snapshot; they are modelled from the spec
(sections 3, 4.1, 4.2, 4.6).  Everything else is a direct embedding of the
Python source.
-/

namespace MusicAnki

/-- Modelled from the spec: the seven note letters A–G of the pitch model
(`pymusictheory.NoteInOctave`), not part of src/. -/
inductive Letter : Type
  | C | D | E | F | G | A | B
deriving DecidableEq, Repr

/-- Modelled from the spec: the fixed letter→semitone table (C=0, D=2, E=4,
F=5, G=7, A=9, B=11). -/
def Letter.base : Letter → Int
  | .C => 0
  | .D => 2
  | .E => 4
  | .F => 5
  | .G => 7
  | .A => 9
  | .B => 11

/-- Diatonic position of a letter inside one octave (C=0 … B=6), used by
interval letter-stepping. -/
def Letter.idx : Letter → Nat
  | .C => 0
  | .D => 1
  | .E => 2
  | .F => 3
  | .G => 4
  | .A => 5
  | .B => 6

def Letter.ofIdx : Nat → Letter
  | 0 => .C
  | 1 => .D
  | 2 => .E
  | 3 => .F
  | 4 => .G
  | 5 => .A
  | _ => .B

def allLetters : List Letter := [.C, .D, .E, .F, .G, .A, .B]

/-- Alteration constants of the pitch model, as signed semitone deltas
(the spec: "its alteration expressed as a signed semitone delta"). -/
def NoteAlteration.DOUBLE_FLAT : Int := -2

def NoteAlteration.FLAT : Int := -1

def NoteAlteration.NATURAL : Int := 0

def NoteAlteration.SHARP : Int := 1

def NoteAlteration.DOUBLE_SHARP : Int := 2

/-- The alterations the pitch model supports (double-flat … double-sharp). -/
def supportedAlterations : List Int := [-2, -1, 0, 1, 2]

/-- Modelled from the spec: a pitch = letter + alteration + octave
(`pymusictheory.NoteInOctave`).  Equality is by the full triple. -/
structure NoteInOctave where
  letter : Letter
  alteration : Int
  octave : Int
deriving DecidableEq, Repr

/-- Modelled from the spec: `absolute_semitone_offset` = letter table value
plus alteration delta plus `12 * octave`. -/
def NoteInOctave.absolute_semitone_offset (n : NoteInOctave) : Int :=
  n.letter.base + n.alteration + 12 * n.octave

/-- Modelled from the spec: the inverse of `absolute_semitone_offset` —
all valid `(letter, alteration)` spellings (alterations double-flat …
double-sharp) that map to the given offset, each with the octave forced by
the offset equation. -/
def NoteInOctave.from_absolute_semitone_offset (pos : Int) : List NoteInOctave :=
  allLetters.flatMap fun l =>
    supportedAlterations.filterMap fun a =>
      let r : Int := pos - l.base - a
      if r % 12 = 0 then some ⟨l, a, r / 12⟩ else none

/-- Modelled from the spec: symbolic intervals with a fixed semitone size and
a generic letter-step count (`pymusictheory.Interval`); the inventory is the
set of intervals the repository's scripts use. -/
inductive Interval : Type
  | PERFECT_UNISON
  | MINOR_SECOND
  | MAJOR_SECOND
  | MINOR_THIRD
  | MAJOR_THIRD
  | PERFECT_FOURTH
  | PERFECT_FIFTH
  | MINOR_SIXTH
  | MAJOR_SIXTH
  | MINOR_SEVENTH
  | MAJOR_SEVENTH
deriving DecidableEq, Repr, Fintype

/-- Letter steps spanned by an interval (unison = 0, third = 2, …). -/
def Interval.steps : Interval → Nat
  | .PERFECT_UNISON => 0
  | .MINOR_SECOND => 1
  | .MAJOR_SECOND => 1
  | .MINOR_THIRD => 2
  | .MAJOR_THIRD => 2
  | .PERFECT_FOURTH => 3
  | .PERFECT_FIFTH => 4
  | .MINOR_SIXTH => 5
  | .MAJOR_SIXTH => 5
  | .MINOR_SEVENTH => 6
  | .MAJOR_SEVENTH => 6

/-- Semitone size of an interval. -/
def Interval.semitones : Interval → Int
  | .PERFECT_UNISON => 0
  | .MINOR_SECOND => 1
  | .MAJOR_SECOND => 2
  | .MINOR_THIRD => 3
  | .MAJOR_THIRD => 4
  | .PERFECT_FOURTH => 5
  | .PERFECT_FIFTH => 7
  | .MINOR_SIXTH => 8
  | .MAJOR_SIXTH => 9
  | .MINOR_SEVENTH => 10
  | .MAJOR_SEVENTH => 11

/-- Modelled from the spec: `pitch + interval` — step the letter diatonically
by the interval's letter-step count (carrying into the octave), then pick the
alteration that makes the resulting semitone distance from the root match the
interval's size exactly. -/
def NoteInOctave.addInterval (n : NoteInOctave) (i : Interval) : NoteInOctave :=
  let newIdx : Nat := n.letter.idx + i.steps
  let newLetter : Letter := Letter.ofIdx (newIdx % 7)
  let newOctave : Int := n.octave + (newIdx / 7 : Nat)
  let newAlteration : Int :=
    (n.absolute_semitone_offset + i.semitones) - (newLetter.base + 12 * newOctave)
  ⟨newLetter, newAlteration, newOctave⟩

/-! ## Root enumeration (gen_chord_images.py, `chord_generation`, lines 133–148) -/

/-- The per-offset candidate set of `chord_generation`: all spellings of the
offset whose alteration is natural, sharp or flat (double alterations are
discarded) — lines 138–145 of gen_chord_images.py. -/
def root_candidates (pos : Int) : List NoteInOctave :=
  (NoteInOctave.from_absolute_semitone_offset pos).filter fun note =>
    note.alteration = NoteAlteration.NATURAL ∨
      note.alteration = NoteAlteration.SHARP ∨
        note.alteration = NoteAlteration.FLAT

/-- The `while current_note_position != root_range[1]...` loop (lines
135–147), modelled with explicit fuel: `none` means the fuel ran out, i.e.
the loop has not yet reached the end offset.  Returns the list of offsets the
loop visits, in visiting order. -/
def enumerationOffsets (cur endO : Int) : Nat → Option (List Int)
  | 0 => if cur = endO then some [] else none
  | fuel + 1 =>
    if cur = endO then some []
    else (enumerationOffsets (cur + 1) endO fuel).map (cur :: ·)

theorem enumerationOffsets_some (cur endO : Int) (h : cur ≤ endO) :
    ∃ l, enumerationOffsets cur endO (endO - cur).toNat = some l ∧
      ∀ x, x ∈ l ↔ cur ≤ x ∧ x < endO := by
  generalize hf : (endO - cur).toNat = fuel
  induction fuel generalizing cur with
  | zero =>
    have hc : cur = endO := by omega
    refine ⟨[], by simp [enumerationOffsets, hc], ?_⟩
    intro x
    simp only [List.not_mem_nil, false_iff]
    omega
  | succ f ih =>
    have hne : cur ≠ endO := by omega
    obtain ⟨l, hl, hmem⟩ := ih (cur + 1) (by omega) (by omega)
    refine ⟨cur :: l, ?_, ?_⟩
    · simp [enumerationOffsets, hne, hl]
    · intro x
      simp only [List.mem_cons, hmem x]
      omega

/-! ## Pitch ordering (spec section 3: by absolute offset, then canonical
tie-break with fewer alteration steps preferred) -/

/-- Modelled from the spec: sort key of the total display order on pitches —
absolute semitone offset first, then fewer alteration steps, then (to make
the order total) alteration value and letter position. -/
def noteKey (n : NoteInOctave) : Int ×ₗ (ℕ ×ₗ (Int ×ₗ ℕ)) :=
  toLex (n.absolute_semitone_offset,
    toLex (n.alteration.natAbs, toLex (n.alteration, n.letter.idx)))

def noteLe (a b : NoteInOctave) : Prop := noteKey a ≤ noteKey b

instance : DecidableRel noteLe := fun a b =>
  inferInstanceAs (Decidable (noteKey a ≤ noteKey b))

instance : IsTotal NoteInOctave noteLe :=
  ⟨fun a b => le_total (noteKey a) (noteKey b)⟩

instance : IsTrans NoteInOctave noteLe :=
  ⟨fun _ _ _ => le_trans⟩

theorem letter_idx_inj {a b : Letter} (h : a.idx = b.idx) : a = b := by
  cases a <;> cases b <;> first | rfl | exact absurd h (by decide)

theorem noteKey_inj {a b : NoteInOctave} (h : noteKey a = noteKey b) : a = b := by
  have h1 := toLex.injective h
  rw [Prod.mk.injEq] at h1
  have h2 := toLex.injective h1.2
  rw [Prod.mk.injEq] at h2
  have h3 := toLex.injective h2.2
  rw [Prod.mk.injEq] at h3
  have hletter : a.letter = b.letter := letter_idx_inj h3.2
  have hoff := h1.1
  unfold NoteInOctave.absolute_semitone_offset at hoff
  rw [hletter, h3.1] at hoff
  have hoct : a.octave = b.octave := by omega
  cases a; cases b
  simp only at hletter h3 hoct
  simp [hletter, h3.1, hoct]

theorem noteLe_antisymm {a b : NoteInOctave} (h1 : noteLe a b) (h2 : noteLe b a) :
    a = b :=
  noteKey_inj (le_antisymm h1 h2)

theorem noteLe_refl (a : NoteInOctave) : noteLe a a := le_refl _

/-- Offsets order notes: a strictly smaller absolute offset is strictly
earlier in the display order. -/
theorem noteLe_of_offset_lt {a b : NoteInOctave}
    (h : a.absolute_semitone_offset < b.absolute_semitone_offset) : noteLe a b := by
  unfold noteLe noteKey
  exact le_of_lt (Prod.Lex.left _ _ h)

/-- Python's `sorted(...)` under the spec's display order. -/
def sortNotes (l : List NoteInOctave) : List NoteInOctave :=
  List.insertionSort noteLe l

/-! ## Chord building (gen_chord_images.py lines 152–155):
`Chord({root + interval for interval in intervals})` — a set of pitches. -/

/-- The chord built for one root: the set of `root + interval` pitches
(set semantics: duplicates collapse). -/
def buildChord (root : NoteInOctave) (intervals : List Interval) : List NoteInOctave :=
  (intervals.map root.addInterval).dedup

/-- Adding an interval to a pitch adds exactly the interval's semitone size to the
absolute offset, whatever letter respelling happens. -/
theorem addInterval_offset (n : NoteInOctave) (i : Interval) :
    (n.addInterval i).absolute_semitone_offset = n.absolute_semitone_offset + i.semitones := by
  unfold NoteInOctave.addInterval NoteInOctave.absolute_semitone_offset
  push_cast
  ring

/-! ## Clefs and the notation document (gen_chord_images.py lines 15–82) -/

/-- The `ClefType` enum (lines 15–24): values are `(clef_sign, line_number)`. -/
inductive ClefType : Type
  | G
  | F
deriving DecidableEq, Repr

def ClefType.value : ClefType → String × Nat
  | .G => ("G", 2)
  | .F => ("F", 4)

/-- One `<note>` element of the emitted MusicXML: the chord tag (`<chord/>`,
present on every note but the first), the pitch fields (`<step>`, `<alter>`,
`<octave>`) and the duration fields (`<duration>4</duration>`,
`<type>whole</type>`). -/
structure NoteEntry where
  chordTag : Bool
  step : Letter
  alter : Int
  octave : Int
  duration : Nat
  noteType : String
deriving DecidableEq, Repr

/-- The structured content of the MusicXML document emitted by
`chord_to_musicxml`: the clef `(sign, line)` pair inserted into the template
and the sequence of note elements. -/
structure NotationDocument where
  clefSign : String
  clefLine : Nat
  notes : List NoteEntry
deriving DecidableEq, Repr

/-- The `for i, note_in_octave in enumerate(sorted(chord))` loop of
`chord_to_musicxml` (lines 62–77), carrying the running index `i`. -/
def noteEntriesFrom : Nat → List NoteInOctave → List NoteEntry
  | _, [] => []
  | i, n :: rest =>
    { chordTag := i != 0, step := n.letter, alter := n.alteration,
      octave := n.octave, duration := 4, noteType := "whole" } ::
      noteEntriesFrom (i + 1) rest

/-- Function `chord_to_musicxml` (lines 26–82): the document for a chord and a clef. -/
def chord_to_musicxml (chord : List NoteInOctave) (clef : ClefType) : NotationDocument :=
  { clefSign := clef.value.1
    clefLine := clef.value.2
    notes := noteEntriesFrom 0 (sortNotes chord) }

/-- The pitch carried by a note element. -/
def NoteEntry.pitch (e : NoteEntry) : NoteInOctave :=
  ⟨e.step, e.alter, e.octave⟩

theorem noteEntriesFrom_map_pitch (i : Nat) (l : List NoteInOctave) :
    (noteEntriesFrom i l).map NoteEntry.pitch = l := by
  induction l generalizing i with
  | nil => rfl
  | cons n rest ih => simp [noteEntriesFrom, NoteEntry.pitch, ih]

theorem noteEntriesFrom_duration (i : Nat) (l : List NoteInOctave) :
    ∀ e ∈ noteEntriesFrom i l, e.duration = 4 ∧ e.noteType = "whole" := by
  induction l generalizing i with
  | nil => intro e he; cases he
  | cons n rest ih =>
    intro e he
    rcases List.mem_cons.mp he with rfl | hm
    · exact ⟨rfl, rfl⟩
    · exact ih (i + 1) e hm

theorem noteEntriesFrom_chordTag (i : Nat) (l : List NoteInOctave) (j : Nat)
    (h : j < (noteEntriesFrom i l).length) :
    ((noteEntriesFrom i l).get ⟨j, h⟩).chordTag = ((i + j) != 0) := by
  induction l generalizing i j with
  | nil => cases h
  | cons n rest ih =>
    cases j with
    | zero => simp [noteEntriesFrom]
    | succ j' =>
      have h' : j' < (noteEntriesFrom (i + 1) rest).length := by
        simpa [noteEntriesFrom] using h
      have := ih (i + 1) j' h'
      simp only [noteEntriesFrom, List.get_cons_succ]
      rw [this]
      congr 1
      omega

/-! ## Naming and identity (spec section 4.6; gen_chord_images.py lines
162–171 and 213–218; gen_chord_image_anki_pkg.py lines 60–86) -/

def Letter.char : Letter → Char
  | .C => 'C'
  | .D => 'D'
  | .E => 'E'
  | .F => 'F'
  | .G => 'G'
  | .A => 'A'
  | .B => 'B'

def digitCh (n : Nat) : Char :=
  if n = 0 then '0'
  else if n = 1 then '1'
  else if n = 2 then '2'
  else if n = 3 then '3'
  else if n = 4 then '4'
  else if n = 5 then '5'
  else if n = 6 then '6'
  else if n = 7 then '7'
  else if n = 8 then '8'
  else '9'

def natDigitsAux : Nat → Nat → List Char
  | 0, _ => []
  | fuel + 1, n =>
    if n < 10 then [digitCh n]
    else natDigitsAux fuel (n / 10) ++ [digitCh (n % 10)]

/-- Decimal digit string of a natural number. -/
def natDigits (n : Nat) : List Char := natDigitsAux (n + 1) n

/-- Decimal rendering of an integer (octave numbers in `str(NoteInOctave)`). -/
def intChars (o : Int) : List Char :=
  if o < 0 then '-' :: natDigits o.natAbs else natDigits o.toNat

/-- Modelled from the spec: `str(NoteInOctave)` — the display spelling,
letter then unicode sharp/flat glyphs (one per alteration step) then the
octave number. -/
def noteStrChars (n : NoteInOctave) : List Char :=
  n.letter.char ::
    (List.replicate n.alteration.natAbs (if n.alteration < 0 then '♭' else '♯') ++
      intChars n.octave)

/-- Lines 168–169: `filestem.replace("♯", "#").replace("♭", "b")`. -/
def asciiSafe (cs : List Char) : List Char :=
  cs.map fun c => if c = '♯' then '#' else if c = '♭' then 'b' else c

/-- The three chord types generated by `main` (lines 175–203). -/
inductive ChordType : Type
  | major_seventh
  | dominant_seventh
  | minor_seventh
deriving DecidableEq, Repr

/-- The interval stack of each chord type (lines 175–203). -/
def ChordType.intervals : ChordType → List Interval
  | .major_seventh =>
    [.PERFECT_UNISON, .MAJOR_THIRD, .PERFECT_FIFTH, .MAJOR_SEVENTH]
  | .dominant_seventh =>
    [.PERFECT_UNISON, .MAJOR_THIRD, .PERFECT_FIFTH, .MINOR_SEVENTH]
  | .minor_seventh =>
    [.PERFECT_UNISON, .MINOR_THIRD, .PERFECT_FIFTH, .MINOR_SEVENTH]

/-- Modelled from the spec: `chord_type_to_long_symbol` (gen_chords.utils is
not in src/) — the long-form chord-type token suffixed to every stable id,
one distinct token per chord type, following the repository's chord-symbol
conventions. -/
def chord_type_to_long_symbol : ChordType → List Char
  | .major_seventh => ['m', 'a', 'j', '7']
  | .dominant_seventh => ['7']
  | .minor_seventh => ['m', 'i', 'n', '7']

/-- File stem of a chord before the rename (lines 166–169):
`str(sorted_notes[0])` with glyphs ASCII-safed.  `headD` models
`sorted_notes[0]`; it is meaningful exactly when the chord is nonempty (an
empty chord makes the script raise `IndexError`, handled in
`chord_generation` below). -/
def chordFileStem (chord : List NoteInOctave) : List Char :=
  asciiSafe (noteStrChars ((sortNotes chord).headD ⟨.C, 0, 0⟩))

/-- The per-chord-type rename in `main` (lines 213–218): the stem becomes
`{stem}_{chord_type_to_long_symbol(chord_name)}`. -/
def renamedStem (chord : List NoteInOctave) (t : ChordType) : List Char :=
  chordFileStem chord ++ '_' :: chord_type_to_long_symbol t

def isDigitCh (c : Char) : Bool := 48 ≤ c.toNat && c.toNat ≤ 57

/-- The part of a stem before its first decimal digit, as computed by
`re.split` on the digit pattern (gen_chord_image_anki_pkg.py line 64). -/
def takeUntilDigit : List Char → List Char
  | [] => []
  | c :: cs => if isDigitCh c then [] else c :: takeUntilDigit cs

/-- The Anki note GUID (gen_chord_image_anki_pkg.py lines 62–84):
`match[0] + chord_type_to_long_symbol(...)` — the stem's prefix before the
first digit, concatenated with the long chord-type token. -/
def guidOfStem (stem : List Char) (t : ChordType) : List Char :=
  takeUntilDigit stem ++ chord_type_to_long_symbol t

/-- The GUID a generated chord ends up with, as a function of the root it was
generated from and its chord type. -/
def generatedGuid (root : NoteInOctave) (t : ChordType) : List Char :=
  guidOfStem (renamedStem (buildChord root t.intervals) t) t

/-! ## The generation pipeline (gen_chord_images.py lines 117–171) -/

/-- The Python-level failures `chord_generation` can hit: the root loop never
reaching the end offset (`while` with `!=` on a start offset above the end),
the `TypeError` from `set.union()` called with no argument sets (line 148
when the loop body never ran), and the `IndexError` from `sorted_notes[0]`
on an empty chord (line 167). -/
inductive GenError : Type
  | nonTermination
  | typeError
  | indexError
deriving DecidableEq, Repr

/-- Lines 134–148: the root-enumeration loop followed by
`set.union(*roots_with_duplicates)`.  The union of the per-offset candidate
sets, deduplicated; `TypeError` when the loop contributed no sets at all. -/
def enumerate_roots (root_range : NoteInOctave × NoteInOctave) :
    Except GenError (List NoteInOctave) :=
  match enumerationOffsets root_range.1.absolute_semitone_offset
      root_range.2.absolute_semitone_offset
      (root_range.2.absolute_semitone_offset - root_range.1.absolute_semitone_offset).toNat with
  | none => .error .nonTermination
  | some offsets =>
    match offsets.map root_candidates with
    | [] => .error .typeError
    | first :: rest => .ok ((first :: rest).flatten.dedup)

/-- One output of `chord_generation`: the written file's path and stem, the
chord's member pitches, and the emitted document. -/
structure GenEntry where
  filepath : List Char
  stem : List Char
  chordNotes : List NoteInOctave
  doc : NotationDocument
deriving DecidableEq, Repr

/-- The record written for one chord: its png path inside `folder_path`, the
stem of its lowest note, its member pitches and its emitted document. -/
def genEntry (clef_type : ClefType) (folder_path : List Char)
    (chord : List NoteInOctave) : GenEntry :=
  { filepath := folder_path ++ '/' :: (chordFileStem chord ++ ['.', 'p', 'n', 'g'])
    stem := chordFileStem chord
    chordNotes := chord
    doc := chord_to_musicxml chord clef_type }

/-- Function `chord_generation` (lines 117–171): enumerate roots, build one chord per
root in sorted root order, emit each chord's document and write it under the
stem of its lowest note inside `folder_path`. -/
def chord_generation (root_range : NoteInOctave × NoteInOctave) (clef_type : ClefType)
    (intervals : List Interval) (folder_path : List Char) :
    Except GenError (List GenEntry) :=
  match enumerate_roots root_range with
  | .error e => .error e
  | .ok roots =>
    if ((sortNotes roots).map fun root => buildChord root intervals).any List.isEmpty
    then .error .indexError
    else
      .ok (((sortNotes roots).map fun root => buildChord root intervals).map
        (genEntry clef_type folder_path))

/-! ## The external renderer call (gen_chord_images.py lines 85–114) -/

/-- Outcome of the injected external renderer (`subprocess.run(["mscore",
...], check=True)`): success, a nonzero exit (`CalledProcessError`), or the
executable missing from PATH (`FileNotFoundError`). -/
inductive RenderOutcome : Type
  | success
  | nonzeroExit (message : List Char)
  | toolNotFound
deriving DecidableEq, Repr

/-- An uncaught Python exception escaping a call (used to model what
`musicxml_to_png` would propagate if it did not catch). -/
inductive PyError : Type
  | uncaught (message : List Char)
deriving DecidableEq, Repr

/-- Function `musicxml_to_png` (lines 85–114): runs the renderer inside
`try/except` clauses that catch `CalledProcessError` and
`FileNotFoundError`; a caught failure is converted to a printed diagnostic
(`some message`) and the function returns normally.  `Except.error` would
model an exception escaping the function — no branch produces it. -/
def musicxml_to_png (render : RenderOutcome) : Except PyError (Option (List Char)) :=
  match render with
  | .success => .ok none
  | .nonzeroExit msg =>
    .ok (some (['E', 'r', 'r', 'o', 'r', ' ', 'g', 'e', 'n', 'e', 'r', 'a',
      't', 'i', 'n', 'g', ' ', 'i', 'm', 'a', 'g', 'e', ':', ' '] ++ msg))
  | .toolNotFound =>
    .ok (some ("MuseScore is not installed or not found in PATH.".toList))

/-- The per-chord write loop (lines 163–171): each chord's render runs to
completion; an exception escaping `musicxml_to_png` would abort the whole
batch here. -/
def renderBatch : List RenderOutcome → Except PyError (List (Option (List Char)))
  | [] => .ok []
  | o :: rest =>
    match musicxml_to_png o with
    | .error e => .error e
    | .ok d =>
      match renderBatch rest with
      | .error e => .error e
      | .ok ds => .ok (d :: ds)

/-! ## Membership characterizations of the enumeration -/

/-- Concrete pitches used in witnesses and counterexamples. -/
def noteC4 : NoteInOctave := ⟨.C, 0, 4⟩

def noteC5 : NoteInOctave := ⟨.C, 0, 5⟩

def noteC6 : NoteInOctave := ⟨.C, 0, 6⟩

theorem mem_from_absolute_semitone_offset (pos : Int) (n : NoteInOctave) :
    n ∈ NoteInOctave.from_absolute_semitone_offset pos ↔
      n.absolute_semitone_offset = pos ∧ -2 ≤ n.alteration ∧ n.alteration ≤ 2 := by
  unfold NoteInOctave.from_absolute_semitone_offset
  simp only [List.mem_flatMap, List.mem_filterMap, allLetters, supportedAlterations,
    List.mem_cons, List.not_mem_nil, or_false]
  constructor
  · rintro ⟨l, _, a, ha, hif⟩
    split at hif
    case isTrue hmod =>
      obtain rfl := Option.some.inj hif
      unfold NoteInOctave.absolute_semitone_offset
      dsimp only
      refine ⟨by omega, by omega, by omega⟩
    case isFalse => exact absurd hif (by simp)
  · rintro ⟨hoff, hlo, hhi⟩
    refine ⟨n.letter, by cases n.letter <;> simp, n.alteration, by omega, ?_⟩
    have hr : pos - n.letter.base - n.alteration = 12 * n.octave := by
      unfold NoteInOctave.absolute_semitone_offset at hoff
      omega
    rw [hr]
    have h1 : (12 : Int) * n.octave % 12 = 0 := Int.mul_emod_right 12 n.octave
    have h2 : (12 : Int) * n.octave / 12 = n.octave :=
      Int.mul_ediv_cancel_left n.octave (by norm_num)
    rw [if_pos h1, h2]

theorem mem_root_candidates (pos : Int) (n : NoteInOctave) :
    n ∈ root_candidates pos ↔
      n ∈ NoteInOctave.from_absolute_semitone_offset pos ∧
        (n.alteration = NoteAlteration.NATURAL ∨ n.alteration = NoteAlteration.SHARP ∨
          n.alteration = NoteAlteration.FLAT) := by
  unfold root_candidates
  simp [List.mem_filter, decide_eq_true_iff]

theorem offset_of_mem_root_candidates {pos : Int} {n : NoteInOctave}
    (h : n ∈ root_candidates pos) : n.absolute_semitone_offset = pos :=
  ((mem_from_absolute_semitone_offset pos n).mp ((mem_root_candidates pos n).mp h).1).1

theorem alteration_of_mem_root_candidates {pos : Int} {n : NoteInOctave}
    (h : n ∈ root_candidates pos) :
    n.alteration = 0 ∨ n.alteration = 1 ∨ n.alteration = -1 :=
  ((mem_root_candidates pos n).mp h).2

/-- What `enumerate_roots` returns when it succeeds: exactly the
natural/sharp/flat spellings whose absolute offset lies in the closed-open
root range. -/
theorem mem_enumerate_roots {rr : NoteInOctave × NoteInOctave} {l : List NoteInOctave}
    (h : enumerate_roots rr = .ok l) (n : NoteInOctave) :
    n ∈ l ↔
      n ∈ root_candidates n.absolute_semitone_offset ∧
        rr.1.absolute_semitone_offset ≤ n.absolute_semitone_offset ∧
        n.absolute_semitone_offset < rr.2.absolute_semitone_offset := by
  unfold enumerate_roots at h
  by_cases hle : rr.1.absolute_semitone_offset ≤ rr.2.absolute_semitone_offset
  · obtain ⟨offs, hoffs, hmem⟩ := enumerationOffsets_some _ _ hle
    rw [hoffs] at h
    simp only at h
    cases hm : offs.map root_candidates with
    | nil => rw [hm] at h; cases h
    | cons first rest =>
      rw [hm] at h
      obtain rfl := Except.ok.inj h
      rw [← hm]
      simp only [List.mem_dedup, List.mem_flatten, List.mem_map]
      constructor
      · rintro ⟨cand, ⟨pos, hpos, rfl⟩, hn⟩
        have hoffn := offset_of_mem_root_candidates hn
        rw [hoffn]
        exact ⟨hn, (hmem pos).mp hpos⟩
      · rintro ⟨hn, h1, h2⟩
        exact ⟨root_candidates n.absolute_semitone_offset,
          ⟨n.absolute_semitone_offset, (hmem _).mpr ⟨h1, h2⟩, rfl⟩, hn⟩
  · exfalso
    have hz : (rr.2.absolute_semitone_offset - rr.1.absolute_semitone_offset).toNat = 0 := by
      omega
    rw [hz] at h
    have hne : rr.1.absolute_semitone_offset ≠ rr.2.absolute_semitone_offset := by omega
    simp only [enumerationOffsets, if_neg hne] at h
    cases h

/-! ## Structure of stems and GUIDs -/

/-- The letter-plus-accidentals prefix of a note's ASCII spelling. -/
def classChars (n : NoteInOctave) : List Char :=
  n.letter.char ::
    List.replicate n.alteration.natAbs (if n.alteration < 0 then 'b' else '#')

/-- What `re.split` leaves of a stem before the first digit: the class prefix
plus, for a negative octave, the minus sign of the octave number. -/
def classMark (n : NoteInOctave) : List Char :=
  classChars n ++ if n.octave < 0 then ['-'] else []

theorem digitCh_isDigit (n : Nat) : isDigitCh (digitCh n) = true := by
  unfold digitCh
  split_ifs <;> decide

theorem natDigitsAux_digits (fuel : Nat) :
    ∀ (n : Nat), ∀ c ∈ natDigitsAux fuel n, isDigitCh c = true := by
  induction fuel with
  | zero => intro n c hc; cases hc
  | succ f ih =>
    intro n c hc
    unfold natDigitsAux at hc
    split_ifs at hc
    · rcases List.mem_singleton.mp hc with rfl
      exact digitCh_isDigit n
    · rcases List.mem_append.mp hc with h | h
      · exact ih _ c h
      · rcases List.mem_singleton.mp h with rfl
        exact digitCh_isDigit _

theorem natDigitsAux_head (fuel : Nat) :
    ∀ (n : Nat), n < fuel →
      ∃ c cs, natDigitsAux fuel n = c :: cs ∧ isDigitCh c = true := by
  induction fuel with
  | zero => intro n h; omega
  | succ f ih =>
    intro n h
    unfold natDigitsAux
    split_ifs with h10
    · exact ⟨digitCh n, [], rfl, digitCh_isDigit n⟩
    · obtain ⟨c, cs, hcs, hdig⟩ := ih (n / 10) (by omega)
      exact ⟨c, cs ++ [digitCh (n % 10)], by rw [hcs]; rfl, hdig⟩

theorem natDigits_head (n : Nat) :
    ∃ c cs, natDigits n = c :: cs ∧ isDigitCh c = true :=
  natDigitsAux_head (n + 1) n (by omega)

theorem natDigits_digits (n : Nat) : ∀ c ∈ natDigits n, isDigitCh c = true :=
  natDigitsAux_digits (n + 1) n

theorem intChars_chars (o : Int) : ∀ c ∈ intChars o, c = '-' ∨ isDigitCh c = true := by
  unfold intChars
  split_ifs
  · intro c hc
    rcases List.mem_cons.mp hc with rfl | h
    · exact Or.inl rfl
    · exact Or.inr (natDigits_digits _ c h)
  · intro c hc
    exact Or.inr (natDigits_digits _ c hc)

theorem takeUntilDigit_append (xs : List Char) (d : Char) (ys : List Char)
    (hxs : ∀ c ∈ xs, isDigitCh c = false) (hd : isDigitCh d = true) :
    takeUntilDigit (xs ++ d :: ys) = xs := by
  induction xs with
  | nil => simp [takeUntilDigit, hd]
  | cons x xs ih =>
    have hx : isDigitCh x = false := hxs x (List.mem_cons_self x xs)
    simp [takeUntilDigit, hx, ih fun c hc => hxs c (List.mem_cons_of_mem x hc)]

theorem asciiSafe_glyphless {c : Char} (h : c = '-' ∨ isDigitCh c = true) :
    (if c = '♯' then '#' else if c = '♭' then 'b' else c) = c := by
  rcases h with rfl | h
  · rfl
  · have h1 : c ≠ '♯' := by rintro rfl; exact absurd h (by decide)
    have h2 : c ≠ '♭' := by rintro rfl; exact absurd h (by decide)
    rw [if_neg h1, if_neg h2]

theorem asciiSafe_noteStr (n : NoteInOctave) :
    asciiSafe (noteStrChars n) = classChars n ++ intChars n.octave := by
  unfold asciiSafe noteStrChars classChars
  simp only [List.map_cons, List.map_append, List.map_replicate, List.cons_append]
  congr 1
  · cases n.letter <;> rfl
  congr 1
  · by_cases ha : n.alteration < 0 <;> simp [ha]
  · have hid : ∀ c ∈ intChars n.octave,
        (if c = '♯' then '#' else if c = '♭' then 'b' else c) = c :=
      fun c hc => asciiSafe_glyphless (intChars_chars n.octave c hc)
    rw [List.map_congr_left hid, List.map_id']

theorem classChars_not_digit (n : NoteInOctave) :
    ∀ c ∈ classChars n, isDigitCh c = false := by
  intro c hc
  rcases List.mem_cons.mp hc with rfl | h
  · cases n.letter <;> decide
  · rw [List.eq_of_mem_replicate h]
    split_ifs <;> decide

theorem takeUntilDigit_stem (n : NoteInOctave) (tail : List Char) :
    takeUntilDigit (asciiSafe (noteStrChars n) ++ tail) = classMark n := by
  rw [asciiSafe_noteStr]
  unfold intChars classMark
  by_cases ho : n.octave < 0
  · rw [if_pos ho, if_pos ho]
    obtain ⟨c, cs, hcs, hdig⟩ := natDigits_head n.octave.natAbs
    rw [hcs]
    have hsplit : classChars n ++ ('-' :: c :: cs) ++ tail =
        (classChars n ++ ['-']) ++ (c :: (cs ++ tail)) := by simp
    rw [hsplit]
    apply takeUntilDigit_append _ _ _ _ hdig
    intro x hx
    rcases List.mem_append.mp hx with h | h
    · exact classChars_not_digit n x h
    · rcases List.mem_singleton.mp h with rfl
      decide
  · rw [if_neg ho, if_neg ho]
    obtain ⟨c, cs, hcs, hdig⟩ := natDigits_head n.octave.toNat
    rw [hcs, List.append_nil]
    have hsplit : classChars n ++ (c :: cs) ++ tail =
        classChars n ++ (c :: (cs ++ tail)) := by simp
    rw [hsplit]
    exact takeUntilDigit_append _ _ _ (classChars_not_digit n) hdig

/-! ## The lowest chord note is the root (the interval stacks all start at
the perfect unison and every other interval is strictly positive) -/

theorem addInterval_unison (n : NoteInOctave) :
    n.addInterval .PERFECT_UNISON = n := by
  obtain ⟨l, a, o⟩ := n
  cases l <;>
    simp [NoteInOctave.addInterval, NoteInOctave.absolute_semitone_offset, Letter.idx,
      Letter.ofIdx, Letter.base, Interval.steps, Interval.semitones]

theorem interval_semitones_pos (i : Interval) (h : i ≠ .PERFECT_UNISON) :
    0 < i.semitones := by
  cases i
  · exact absurd rfl h
  all_goals decide

theorem sorted_buildChord_head (root : NoteInOctave) (ivs : List Interval)
    (hu : Interval.PERFECT_UNISON ∈ ivs) :
    (sortNotes (buildChord root ivs)).headD ⟨.C, 0, 0⟩ = root := by
  have hmem : root ∈ buildChord root ivs := by
    unfold buildChord
    rw [List.mem_dedup]
    exact List.mem_map.mpr ⟨.PERFECT_UNISON, hu, addInterval_unison root⟩
  have hmin : ∀ x ∈ buildChord root ivs, noteLe root x := by
    intro x hx
    unfold buildChord at hx
    rw [List.mem_dedup, List.mem_map] at hx
    obtain ⟨i, _, rfl⟩ := hx
    by_cases hiu : i = .PERFECT_UNISON
    · subst hiu
      rw [addInterval_unison]
      exact noteLe_refl root
    · apply noteLe_of_offset_lt
      rw [addInterval_offset]
      have hpos : 0 < i.semitones := interval_semitones_pos i hiu
      omega
  have hperm : List.Perm (sortNotes (buildChord root ivs)) (buildChord root ivs) :=
    List.perm_insertionSort _ _
  have hsort : List.Sorted noteLe (sortNotes (buildChord root ivs)) :=
    List.sorted_insertionSort _ _
  cases hs : sortNotes (buildChord root ivs) with
  | nil =>
    exfalso
    have hr : root ∈ sortNotes (buildChord root ivs) := hperm.mem_iff.mpr hmem
    rw [hs] at hr
    cases hr
  | cons h0 tl =>
    simp only [List.headD_cons]
    have hh0 : h0 ∈ buildChord root ivs := by
      have : h0 ∈ sortNotes (buildChord root ivs) := by
        rw [hs]
        exact List.mem_cons_self h0 tl
      exact hperm.mem_iff.mp this
    have hle1 : noteLe root h0 := hmin h0 hh0
    have hr : root ∈ h0 :: tl := by
      rw [← hs]
      exact hperm.mem_iff.mpr hmem
    rcases List.mem_cons.mp hr with heq | htl
    · exact heq.symm
    · rw [hs] at hsort
      have hle2 : noteLe h0 root := (List.sorted_cons.mp hsort).1 root htl
      exact noteLe_antisymm hle2 hle1

/-- The GUID of a generated chord in closed form: the root's class prefix
(letter, accidentals, possible octave minus sign) followed by the chord-type
token. -/
theorem generatedGuid_eq (root : NoteInOctave) (t : ChordType) :
    generatedGuid root t = classMark root ++ chord_type_to_long_symbol t := by
  unfold generatedGuid guidOfStem renamedStem chordFileStem
  rw [sorted_buildChord_head root t.intervals (by cases t <;> simp [ChordType.intervals])]
  rw [takeUntilDigit_stem]

theorem letter_char_inj {a b : Letter} (h : a.char = b.char) : a = b := by
  cases a <;> cases b <;> first | rfl | exact absurd h (by decide)

/-- Two single-alteration pitches with the same class mark share letter and
alteration. -/
theorem classMark_inj {a b : NoteInOctave}
    (ha : a.alteration = 0 ∨ a.alteration = 1 ∨ a.alteration = -1)
    (hb : b.alteration = 0 ∨ b.alteration = 1 ∨ b.alteration = -1)
    (h : classMark a = classMark b) :
    a.letter = b.letter ∧ a.alteration = b.alteration := by
  rcases ha with ha | ha | ha <;> rcases hb with hb | hb | hb <;>
    by_cases hoa : a.octave < 0 <;> by_cases hob : b.octave < 0 <;>
      simp [classMark, classChars, ha, hb, hoa, hob] at h <;>
        first
          | exact letter_char_inj h
          | exact ⟨letter_char_inj h, by rw [ha, hb]⟩

theorem classMark_chars (n : NoteInOctave) :
    ∀ c ∈ classMark n, c ∈ ['A', 'B', 'C', 'D', 'E', 'F', 'G', '#', 'b', '-'] := by
  intro c hc
  unfold classMark classChars at hc
  rcases List.mem_append.mp hc with h | h
  · rcases List.mem_cons.mp h with rfl | h
    · cases n.letter <;> decide
    · rw [List.eq_of_mem_replicate h]
      split_ifs <;> decide
  · by_cases ho : n.octave < 0
    · rw [if_pos ho] at h
      rcases List.mem_singleton.mp h with rfl
      decide
    · rw [if_neg ho] at h
      cases h

/-- Equal GUIDs force equal chord-type tokens and equal class marks: no
chord-type token can be absorbed into another GUID's class mark, because the
tokens' lowercase letters never occur in a class mark. -/
theorem guid_token_split {a b : NoteInOctave} {t1 t2 : ChordType}
    (h : classMark a ++ chord_type_to_long_symbol t1 =
      classMark b ++ chord_type_to_long_symbol t2) :
    t1 = t2 ∧ classMark a = classMark b := by
  have hlen := congrArg List.length h
  simp only [List.length_append] at hlen
  cases t1 <;> cases t2
  · exact ⟨rfl, List.append_cancel_right h⟩
  · exfalso
    have h2 : (classMark a ++ ['m', 'a', 'j']) ++ ['7'] =
        classMark b ++ ['7'] := by
      simpa [chord_type_to_long_symbol, List.append_assoc] using h
    have h3 := List.append_cancel_right h2
    have hm : 'm' ∈ classMark b := by rw [← h3]; simp
    exact absurd (classMark_chars b _ hm) (by decide)
  · exfalso
    obtain ⟨-, htok⟩ := List.append_inj h
      (by simp [chord_type_to_long_symbol] at hlen; omega)
    exact absurd htok (by decide)
  · exfalso
    have h2 : classMark a ++ ['7'] =
        (classMark b ++ ['m', 'a', 'j']) ++ ['7'] := by
      simpa [chord_type_to_long_symbol, List.append_assoc] using h
    have h3 := List.append_cancel_right h2
    have hm : 'm' ∈ classMark a := by rw [h3]; simp
    exact absurd (classMark_chars a _ hm) (by decide)
  · exact ⟨rfl, List.append_cancel_right h⟩
  · exfalso
    have h2 : classMark a ++ ['7'] =
        (classMark b ++ ['m', 'i', 'n']) ++ ['7'] := by
      simpa [chord_type_to_long_symbol, List.append_assoc] using h
    have h3 := List.append_cancel_right h2
    have hm : 'm' ∈ classMark a := by rw [h3]; simp
    exact absurd (classMark_chars a _ hm) (by decide)
  · exfalso
    obtain ⟨-, htok⟩ := List.append_inj h
      (by simp [chord_type_to_long_symbol] at hlen; omega)
    exact absurd htok (by decide)
  · exfalso
    have h2 : (classMark a ++ ['m', 'i', 'n']) ++ ['7'] =
        classMark b ++ ['7'] := by
      simpa [chord_type_to_long_symbol, List.append_assoc] using h
    have h3 := List.append_cancel_right h2
    have hm : 'm' ∈ classMark b := by rw [← h3]; simp
    exact absurd (classMark_chars b _ hm) (by decide)
  · exact ⟨rfl, List.append_cancel_right h⟩

/-- In a root range spanning at most one octave, two enumerated roots with
the same letter and alteration are the same pitch: their offsets would
otherwise differ by a full multiple of 12 and could not both lie in the
range. -/
theorem roots_same_class_eq {rr : NoteInOctave × NoteInOctave} {l : List NoteInOctave}
    (h : enumerate_roots rr = .ok l)
    (hspan : rr.2.absolute_semitone_offset - rr.1.absolute_semitone_offset ≤ 12)
    {r1 r2 : NoteInOctave} (h1 : r1 ∈ l) (h2 : r2 ∈ l)
    (hl : r1.letter = r2.letter) (ha : r1.alteration = r2.alteration) : r1 = r2 := by
  obtain ⟨-, hs1, he1⟩ := (mem_enumerate_roots h r1).mp h1
  obtain ⟨-, hs2, he2⟩ := (mem_enumerate_roots h r2).mp h2
  have e1 : r1.absolute_semitone_offset =
      r1.letter.base + r1.alteration + 12 * r1.octave := rfl
  have e2 : r2.absolute_semitone_offset =
      r2.letter.base + r2.alteration + 12 * r2.octave := rfl
  rw [hl] at e1
  have hoct : r1.octave = r2.octave := by omega
  obtain ⟨l1, a1, o1⟩ := r1
  obtain ⟨l2, a2, o2⟩ := r2
  simp only at hl ha hoct
  rw [hl, ha, hoct]

/-! ## Claim theorems -/

/-- C7: for every root range whose start offset is not above its end offset,
the root-enumeration loop visits exactly the absolute semitone offsets in the
closed-open interval `[start, end)` — the start offset is included and the
end offset is excluded. -/
theorem c7_visited_offsets_closed_open (root_range : NoteInOctave × NoteInOctave)
    (h : root_range.1.absolute_semitone_offset ≤ root_range.2.absolute_semitone_offset) :
    ∃ visited,
      enumerationOffsets root_range.1.absolute_semitone_offset
          root_range.2.absolute_semitone_offset
          (root_range.2.absolute_semitone_offset -
            root_range.1.absolute_semitone_offset).toNat = some visited ∧
        ∀ x, x ∈ visited ↔
          root_range.1.absolute_semitone_offset ≤ x ∧
            x < root_range.2.absolute_semitone_offset :=
  enumerationOffsets_some _ _ h

/-- Witness for C7 at the concrete one-octave range [C4, C5). -/
theorem c7_visited_offsets_closed_open_witness :
    ∃ visited,
      enumerationOffsets noteC4.absolute_semitone_offset
          noteC5.absolute_semitone_offset
          (noteC5.absolute_semitone_offset - noteC4.absolute_semitone_offset).toNat =
        some visited ∧
        ∀ x, x ∈ visited ↔
          noteC4.absolute_semitone_offset ≤ x ∧
            x < noteC5.absolute_semitone_offset :=
  c7_visited_offsets_closed_open (noteC4, noteC5) (by decide)

/-- C10: the root-enumeration loop terminates for every root range whose
start offset is at most its end offset: one unit of fuel per missing
semitone lets the loop, which increments the current offset by one per step
and compares with inequality, reach the end offset exactly. -/
theorem c10_loop_terminates (root_range : NoteInOctave × NoteInOctave)
    (h : root_range.1.absolute_semitone_offset ≤ root_range.2.absolute_semitone_offset) :
    ∃ fuel visited,
      enumerationOffsets root_range.1.absolute_semitone_offset
        root_range.2.absolute_semitone_offset fuel = some visited := by
  obtain ⟨l, hl, -⟩ := enumerationOffsets_some _ _ h
  exact ⟨_, l, hl⟩

/-- Witness for C10 at the concrete range [C4, C5). -/
theorem c10_loop_terminates_witness :
    ∃ fuel visited,
      enumerationOffsets noteC4.absolute_semitone_offset
        noteC5.absolute_semitone_offset fuel = some visited :=
  c10_loop_terminates (noteC4, noteC5) (by decide)

/-- C3 (the code contradicts the claim): on a root range whose start equals
its end the loop contributes no candidate sets, so line 148's
`set.union(*roots_with_duplicates)` is `set.union()` with no arguments — a
`TypeError` — and `chord_generation` aborts instead of yielding an empty
chord set. -/
theorem c3_empty_range_type_error :
    chord_generation (noteC4, noteC4) ClefType.G ChordType.major_seventh.intervals [] =
      .error GenError.typeError := rfl

/-- C2 counterexample: root enumeration over [C4, C5) does not yield 17
roots. -/
theorem c2_seventeen_roots_refuted :
    ¬ (enumerate_roots (noteC4, noteC5)).map List.length = Except.ok 17 := by
  intro h
  have h21 : (enumerate_roots (noteC4, noteC5)).map List.length = Except.ok 21 := rfl
  rw [h21] at h
  injection h with h
  omega

/-- C2 amended: root enumeration over the one-octave range [C4, C5) with
alterations restricted to natural/sharp/flat yields exactly 21 distinct
roots — 7 naturals, 7 sharps (including E#4 and B#3) and 7 flats (including
Fb4 and Cb5), since every offset of the range has three spellings and only
the double-altered ones are discarded. -/
theorem c2_twenty_one_roots :
    ∃ l, enumerate_roots (noteC4, noteC5) = Except.ok l ∧ l.length = 21 :=
  ⟨_, rfl, rfl⟩

/-- C4: at every offset, exactly the spellings whose alteration is natural,
sharp or flat are kept in the candidate set, and every double-altered
spelling of the offset is discarded.  (In the modelled pitch model each
offset also admits a single-alteration spelling, so a fully double-altered
offset cannot arise; an offset whose candidate set is empty would simply
contribute an empty set to the union, which raises nothing.) -/
theorem c4_alteration_filter (pos : Int) (n : NoteInOctave) :
    (n ∈ root_candidates pos ↔
      n ∈ NoteInOctave.from_absolute_semitone_offset pos ∧
        (n.alteration = NoteAlteration.NATURAL ∨ n.alteration = NoteAlteration.SHARP ∨
          n.alteration = NoteAlteration.FLAT)) ∧
    (n ∈ NoteInOctave.from_absolute_semitone_offset pos ∧ n.alteration.natAbs = 2 →
      n ∉ root_candidates pos) := by
  refine ⟨mem_root_candidates pos n, ?_⟩
  rintro ⟨-, h2⟩ hc
  rcases alteration_of_mem_root_candidates hc with h | h | h <;> omega

/-- Witness for C4: the double-sharp spelling C##4 of offset 50 is a spelling
of that offset and is discarded. -/
theorem c4_alteration_filter_witness :
    (⟨Letter.C, 2, 4⟩ : NoteInOctave) ∉ root_candidates 50 :=
  (c4_alteration_filter 50 ⟨Letter.C, 2, 4⟩).2 ⟨by decide, by decide⟩

/-- C1 counterexample: over the two-octave range [C4, C6) the roots C4 and
C5 are both generated; they are distinct, yet with the same chord type they
produce the same GUID, because the GUID is built from the stem's prefix
before the first digit and so drops the octave. -/
theorem c1_guid_collision :
    ∃ l, enumerate_roots (noteC4, noteC6) = Except.ok l ∧
      noteC4 ∈ l ∧ noteC5 ∈ l ∧ noteC4 ≠ noteC5 ∧
      generatedGuid noteC4 ChordType.major_seventh =
        generatedGuid noteC5 ChordType.major_seventh :=
  ⟨_, rfl, by decide, by decide, by decide, rfl⟩

/-- C1 amended: over any root range spanning at most one octave (end offset
minus start offset at most 12), the GUID map is injective on the (root,
chord type) pairs actually generated: equal GUIDs force the same root and
the same chord type. -/
theorem c1_guid_injective_within_octave
    (root_range : NoteInOctave × NoteInOctave) (l : List NoteInOctave)
    (hok : enumerate_roots root_range = .ok l)
    (hspan : root_range.2.absolute_semitone_offset -
      root_range.1.absolute_semitone_offset ≤ 12)
    (r1 r2 : NoteInOctave) (t1 t2 : ChordType)
    (h1 : r1 ∈ l) (h2 : r2 ∈ l)
    (hg : generatedGuid r1 t1 = generatedGuid r2 t2) :
    r1 = r2 ∧ t1 = t2 := by
  rw [generatedGuid_eq, generatedGuid_eq] at hg
  obtain ⟨ht, hcm⟩ := guid_token_split hg
  have ha1 := alteration_of_mem_root_candidates ((mem_enumerate_roots hok r1).mp h1).1
  have ha2 := alteration_of_mem_root_candidates ((mem_enumerate_roots hok r2).mp h2).1
  obtain ⟨hl, ha⟩ := classMark_inj ha1 ha2 hcm
  exact ⟨roots_same_class_eq hok hspan h1 h2 hl ha, ht⟩

/-- Witness for C1 amended, at the one-octave range [C4, C5) with the root
C4 and the major-seventh chord type. -/
theorem c1_guid_injective_within_octave_witness :
    noteC4 = noteC4 ∧ ChordType.major_seventh = ChordType.major_seventh :=
  c1_guid_injective_within_octave (noteC4, noteC5) _ rfl (by decide)
    noteC4 noteC4 ChordType.major_seventh ChordType.major_seventh
    (by decide) (by decide) rfl

/-- C8: the chord built by stacking an interval list onto a root has exactly
as many member pitches as intervals whenever no two intervals applied to the
root coincide in absolute semitone offset, and strictly fewer otherwise
(both outcomes are deterministic functions of the inputs). -/
theorem c8_chord_size (root : NoteInOctave) (intervals : List Interval) :
    (List.Pairwise (fun i j => (root.addInterval i).absolute_semitone_offset ≠
        (root.addInterval j).absolute_semitone_offset) intervals →
      (buildChord root intervals).length = intervals.length) ∧
    (¬ List.Pairwise (fun i j => (root.addInterval i).absolute_semitone_offset ≠
        (root.addInterval j).absolute_semitone_offset) intervals →
      (buildChord root intervals).length < intervals.length) := by
  have hsem : ∀ i j : Interval, i.semitones = j.semitones → i = j := by decide
  have hiff : ∀ i j : Interval,
      root.addInterval i ≠ root.addInterval j ↔
        (root.addInterval i).absolute_semitone_offset ≠
          (root.addInterval j).absolute_semitone_offset := by
    intro i j
    constructor
    · intro hne hoffeq
      apply hne
      have hs : i.semitones = j.semitones := by
        rw [addInterval_offset, addInterval_offset] at hoffeq
        omega
      rw [hsem i j hs]
    · intro hoff heq
      exact hoff (by rw [heq])
  have hnodup_iff : (intervals.map root.addInterval).Nodup ↔
      List.Pairwise (fun i j => (root.addInterval i).absolute_semitone_offset ≠
        (root.addInterval j).absolute_semitone_offset) intervals := by
    unfold List.Nodup
    rw [List.pairwise_map]
    constructor
    · exact fun h => h.imp fun hne => (hiff _ _).mp hne
    · exact fun h => h.imp fun hne => (hiff _ _).mpr hne
  constructor
  · intro hp
    have hnd : (intervals.map root.addInterval).Nodup := hnodup_iff.mpr hp
    unfold buildChord
    rw [hnd.dedup, List.length_map]
  · intro hp
    have hnd : ¬ (intervals.map root.addInterval).Nodup := fun h =>
      hp (hnodup_iff.mp h)
    have hsub := List.dedup_sublist (intervals.map root.addInterval)
    have hle := hsub.length_le
    have hne : (intervals.map root.addInterval).dedup.length ≠
        (intervals.map root.addInterval).length := by
      intro he
      have heq := hsub.eq_of_length he
      exact hnd (heq ▸ List.nodup_dedup (intervals.map root.addInterval))
    have hlt := lt_of_le_of_ne hle hne
    unfold buildChord
    rw [List.length_map] at hlt
    exact hlt

/-- Witness for C8: the four major-seventh intervals on C4 give a four-note
chord, and a duplicated unison gives fewer members than intervals. -/
theorem c8_chord_size_witness :
    (buildChord noteC4 ChordType.major_seventh.intervals).length =
        ChordType.major_seventh.intervals.length ∧
      (buildChord noteC4 [Interval.PERFECT_UNISON, Interval.PERFECT_UNISON]).length <
        [Interval.PERFECT_UNISON, Interval.PERFECT_UNISON].length :=
  ⟨(c8_chord_size noteC4 ChordType.major_seventh.intervals).1 (by decide),
    (c8_chord_size noteC4 [Interval.PERFECT_UNISON, Interval.PERFECT_UNISON]).2
      (by decide)⟩

/-- C6: the emitted document carries the clef's (sign, line) pair verbatim;
its note elements list the chord's pitches in ascending pitch order (they
are a permutation of the chord sorted by the display order); every element
has the whole-note duration fields; the element at position 0 has no chord
tag and every later element is tagged as stacked onto the same beat; and
each element carries its pitch's letter, signed alteration and octave (the
pitch is recovered from exactly those three fields). -/
theorem c6_document_structure (chord : List NoteInOctave) (clef : ClefType) :
    (chord_to_musicxml chord clef).clefSign = clef.value.1 ∧
    (chord_to_musicxml chord clef).clefLine = clef.value.2 ∧
    List.Sorted noteLe ((chord_to_musicxml chord clef).notes.map NoteEntry.pitch) ∧
    ((chord_to_musicxml chord clef).notes.map NoteEntry.pitch).Perm chord ∧
    (∀ e ∈ (chord_to_musicxml chord clef).notes,
      e.duration = 4 ∧ e.noteType = "whole") ∧
    ∀ (j : Nat) (hj : j < (chord_to_musicxml chord clef).notes.length),
      ((chord_to_musicxml chord clef).notes.get ⟨j, hj⟩).chordTag = (j != 0) := by
  refine ⟨rfl, rfl, ?_, ?_, noteEntriesFrom_duration 0 (sortNotes chord), ?_⟩
  · have hmap : (chord_to_musicxml chord clef).notes.map NoteEntry.pitch =
        sortNotes chord := noteEntriesFrom_map_pitch 0 (sortNotes chord)
    rw [hmap]
    exact List.sorted_insertionSort _ _
  · have hmap : (chord_to_musicxml chord clef).notes.map NoteEntry.pitch =
        sortNotes chord := noteEntriesFrom_map_pitch 0 (sortNotes chord)
    rw [hmap]
    exact List.perm_insertionSort _ _
  · intro j hj
    have := noteEntriesFrom_chordTag 0 (sortNotes chord) j hj
    simpa using this

/-- Witness for C6 on the two-note chord {C4, E4} with the bass clef: the
second emitted note is chord-tagged and the first carries the whole-note
duration fields. -/
theorem c6_document_structure_witness :
    ((chord_to_musicxml [⟨Letter.E, 0, 4⟩, ⟨Letter.C, 0, 4⟩] ClefType.F).notes.get
        ⟨1, by decide⟩).chordTag = (1 != 0) ∧
      (((chord_to_musicxml [⟨Letter.E, 0, 4⟩, ⟨Letter.C, 0, 4⟩] ClefType.F).notes.get
          ⟨0, by decide⟩).duration = 4 ∧
        ((chord_to_musicxml [⟨Letter.E, 0, 4⟩, ⟨Letter.C, 0, 4⟩] ClefType.F).notes.get
          ⟨0, by decide⟩).noteType = "whole") :=
  ⟨(c6_document_structure [⟨Letter.E, 0, 4⟩, ⟨Letter.C, 0, 4⟩] ClefType.F).2.2.2.2.2
      1 (by decide),
    (c6_document_structure [⟨Letter.E, 0, 4⟩, ⟨Letter.C, 0, 4⟩] ClefType.F).2.2.2.2.1
      _ (by decide)⟩

/-- C5: the per-chord rendering call never lets a renderer failure escape:
whatever the renderer outcome (success, nonzero exit, tool not found) the
call returns normally; both failure outcomes return a printed diagnostic;
and the batch loop therefore processes every chord, producing one result per
chord. -/
theorem c5_render_failures_contained (outcomes : List RenderOutcome) :
    (∀ o, ∃ d, musicxml_to_png o = Except.ok d) ∧
    (∀ msg, ∃ diag,
      musicxml_to_png (RenderOutcome.nonzeroExit msg) = Except.ok (some diag)) ∧
    (∃ diag, musicxml_to_png RenderOutcome.toolNotFound = Except.ok (some diag)) ∧
    ∃ ds, renderBatch outcomes = Except.ok ds ∧ ds.length = outcomes.length := by
  refine ⟨fun o => ?_, fun msg => ⟨_, rfl⟩, ⟨_, rfl⟩, ?_⟩
  · cases o <;> exact ⟨_, rfl⟩
  · induction outcomes with
    | nil => exact ⟨[], rfl, rfl⟩
    | cons o rest ih =>
      obtain ⟨ds, hds, hlen⟩ := ih
      cases o <;>
        (simp only [renderBatch, musicxml_to_png, hds]
         exact ⟨_, rfl, by simp [hlen]⟩)

/-- C9: the pipeline is deterministic across regenerations — it is a pure
function of the root range, clef and interval inputs, and in particular two
runs into two different output directories produce identical lists of file
stems and identical chord membership. -/
theorem c9_pipeline_deterministic (root_range : NoteInOctave × NoteInOctave)
    (clef_type : ClefType) (intervals : List Interval) (dir1 dir2 : List Char) :
    (chord_generation root_range clef_type intervals dir1).map
        (List.map fun en => (en.stem, en.chordNotes)) =
      (chord_generation root_range clef_type intervals dir2).map
        (List.map fun en => (en.stem, en.chordNotes)) := by
  unfold chord_generation
  cases enumerate_roots root_range with
  | error e => rfl
  | ok roots =>
    dsimp only
    by_cases hany :
      (((sortNotes roots).map fun root => buildChord root intervals).any
        List.isEmpty) = true
    · simp only [if_pos hany]
    · simp only [if_neg hany, Except.map, List.map_map]
      rfl

end MusicAnki
